import Mathlib

/-!
Verification of the MemoMe note-taking client (React + Firebase).

The client-side logic under verification lives in `src/App.jsx` (and the
extended revision of the same component shipped alongside it): the ordering
engine (`sortNotes` and its comparator), the sort-index helpers
(`findNextSortIndex`, `findGroupTopIndex`, `findPinnedTopIndex`), body
normalization (`normalizeBody`), reorder reconciliation
(`reorderWithinGroup` / `handleDrop`), touch-swipe classification
(`handleTouchEnd`), and the signed-in e-mail allowlist
(`isAllowedUser` and the auth-state-change effect).

Notes are Firestore documents; timestamps are modelled by their epoch
millisecond value, string identifiers by Lean strings, and a missing or
non-finite field by `Option.none`.
-/

/-- A note record as consumed by the client.  `sortIndex` is `none` when the
persisted field is absent or not a finite number (mirroring the
`Number.isFinite` guard in `getSortIndex`); `updatedAt` is the timestamp in
epoch milliseconds, `none` when the field is missing. -/
structure Note where
  id : String
  pinned : Bool
  sortIndex : Option Int
  updatedAt : Option Int
  body : String
  deriving DecidableEq, Repr

/-- Model of `toMillis` of `App.jsx`: a missing timestamp is treated as
epoch 0, otherwise the millisecond value of the timestamp is returned. -/
def toMillis : Option Int → Int
  | none => 0
  | some t => t

/-- Model of `getSortIndex` of `App.jsx`: `Number(note.sortIndex)` guarded by
`Number.isFinite`; an absent or non-finite value becomes `null` (`none`). -/
def getSortIndex (note : Note) : Option Int :=
  note.sortIndex

/-- Sign of `a.id.localeCompare(b.id)`: negative when `x` precedes `y`
lexicographically, zero when equal, positive otherwise. -/
def idCompare (x y : String) : Int :=
  if x < y then -1 else if x = y then 0 else 1

/-- Steps 3 and 4 of the `sortNotes` comparator: last-updated timestamp
descending (`toMillis(b.updatedAt) - toMillis(a.updatedAt)`), then identifier
ascending as the final tie-break. -/
def cmpUpdatedThenId (a b : Note) : Int :=
  let updatedDiff := toMillis b.updatedAt - toMillis a.updatedAt
  if updatedDiff ≠ 0 then updatedDiff else idCompare a.id b.id

/-- Step 2 of the `sortNotes` comparator and its fall-through: both indices
defined and different compares them numerically, exactly one defined puts the
defined one first, otherwise control falls through to `cmpUpdatedThenId`. -/
def cmpIndexThen (a b : Note) : Int :=
  match getSortIndex a, getSortIndex b with
  | some aIndex, some bIndex =>
      if aIndex ≠ bIndex then aIndex - bIndex else cmpUpdatedThenId a b
  | some _, none => -1
  | none, some _ => 1
  | none, none => cmpUpdatedThenId a b

/-- The comparator passed to `Array.prototype.sort` inside `sortNotes`:
pinned notes first, then `cmpIndexThen`.  A negative result means `a` sorts
before `b`. -/
def cmpNotes (a b : Note) : Int :=
  if a.pinned ≠ b.pinned then
    (if a.pinned then -1 else 1)
  else
    cmpIndexThen a b

/-- The non-strict order induced by the comparator: `a` may be placed at or
before `b`. -/
def noteLE (a b : Note) : Prop :=
  cmpNotes a b ≤ 0

instance : DecidableRel noteLE :=
  fun a b => inferInstanceAs (Decidable (cmpNotes a b ≤ 0))

/-- Model of `sortNotes`: a stable sort of the note list by `cmpNotes`
(insertion sort is stable, as is `Array.prototype.sort` in every current
engine). -/
def sortNotes (items : List Note) : List Note :=
  List.insertionSort noteLE items

/-- Key for steps 3 and 4 of the comparator: negated timestamp (newest
first), then identifier ascending. -/
def noteKeyUpd (n : Note) : ℤ ×ₗ String :=
  toLex (-(toMillis n.updatedAt), n.id)

/-- Key for step 2 of the comparator and its fall-through: defined sort
index first, then the index value, then `noteKeyUpd`. -/
def noteKeyIdx (n : Note) : ℕ ×ₗ ℤ ×ₗ ℤ ×ₗ String :=
  toLex ((if (getSortIndex n).isSome then 0 else 1),
    toLex ((getSortIndex n).getD 0, noteKeyUpd n))

/-- The comparator is equivalent to comparing this lexicographic key:
pinned flag (pinned first), then `noteKeyIdx`. -/
def noteKey (n : Note) : ℕ ×ₗ ℕ ×ₗ ℤ ×ₗ ℤ ×ₗ String :=
  toLex ((if n.pinned then 0 else 1), noteKeyIdx n)

/-- Step 1 of the spec's four-step comparator, following its wording:
pinned before unpinned (boolean descending); equal pinned states fall
through. -/
def specPinnedStep (a b : Note) : Option Int :=
  if a.pinned = b.pinned then none else some (if a.pinned then -1 else 1)

/-- Step 2 of the spec's four-step comparator, following its wording: both
indices defined and different compares ascending; exactly one defined sorts
the defined one first; neither defined, or equal indices, falls through. -/
def specIndexStep (a b : Note) : Option Int :=
  match getSortIndex a, getSortIndex b with
  | some i, some j => if i = j then none else some (if i < j then -1 else 1)
  | some _, none => some (-1)
  | none, some _ => some 1
  | none, none => none

/-- Step 3 of the spec's four-step comparator, following its wording:
last-updated timestamp descending, a missing timestamp treated as epoch 0;
equal timestamps fall through. -/
def specUpdatedStep (a b : Note) : Option Int :=
  if toMillis a.updatedAt = toMillis b.updatedAt then none
  else if toMillis b.updatedAt < toMillis a.updatedAt then some (-1) else some 1

/-- The spec's four-step comparator: the first step that does not fall
through decides; the identifier comparison is the final tie-break. -/
def specCompare (a b : Note) : Int :=
  match specPinnedStep a b with
  | some r => r
  | none =>
    match specIndexStep a b with
    | some r => r
    | none =>
      match specUpdatedStep a b with
      | some r => r
      | none => idCompare a.id b.id

/-- Sample unpinned note used by the concrete witnesses. -/
def noteA : Note :=
  { id := "a", pinned := false, sortIndex := some 0, updatedAt := some 100, body := "A" }

/-- Sample unpinned note used by the concrete witnesses. -/
def noteB : Note :=
  { id := "b", pinned := false, sortIndex := some 1, updatedAt := some 90, body := "B" }

/-- Sample unpinned note used by the concrete witnesses. -/
def noteC : Note :=
  { id := "c", pinned := false, sortIndex := some 2, updatedAt := some 80, body := "C" }

/-- Step function of the `reduce` inside `findNextSortIndex`: notes without
a defined index are skipped, defined indices accumulate the maximum. -/
def maxStep (maxValue : Int) (note : Note) : Int :=
  match getSortIndex note with
  | none => maxValue
  | some noteIndex => max maxValue noteIndex

/-- Model of `findNextSortIndex` of `App.jsx`: the maximum defined sort
index in the requested pinned group, accumulated from `-1`, plus one. -/
def findNextSortIndex (items : List Note) (pinned : Bool) : Int :=
  (items.filter (fun note => note.pinned == pinned)).foldl maxStep (-1) + 1

/-- Step function of the `reduce` inside `findGroupTopIndex` and
`findPinnedTopIndex`: notes without a defined index are skipped, defined
indices accumulate the minimum. -/
def minStep (minValue : Int) (note : Note) : Int :=
  match getSortIndex note with
  | none => minValue
  | some noteIndex => min minValue noteIndex

/-- Model of `findGroupTopIndex` (extended revision of the component): `0`
for an empty group, otherwise the minimum accumulated from the initial
value `0` over the group's defined sort indices, minus one. -/
def findGroupTopIndex (items : List Note) (pinned : Bool) : Int :=
  if (items.filter (fun note => note.pinned == pinned)).isEmpty then 0
  else (items.filter (fun note => note.pinned == pinned)).foldl minStep 0 - 1

/-- Model of `findPinnedTopIndex` of `App.jsx`: `0` when no note is pinned,
otherwise the minimum accumulated from the initial value `0` over the
pinned notes' defined sort indices, minus one. -/
def findPinnedTopIndex (items : List Note) : Int :=
  if (items.filter (fun note => note.pinned)).isEmpty then 0
  else (items.filter (fun note => note.pinned)).foldl minStep 0 - 1

/-- Characters treated as whitespace by the JavaScript `trim` family
(the ones that can occur in this client's input). -/
def isJsWhitespace (c : Char) : Bool :=
  c = ' ' || c = '\t' || c = '\n' || c = '\r' ||
    c = '\x0b' || c = '\x0c' || c = '\u00a0' || c = '\ufeff'

/-- Model of `value.replace(/\r\n?/g, '\n')`: every CRLF pair and every
lone CR becomes LF. -/
def replaceCrLf : List Char → List Char
  | [] => []
  | '\r' :: '\n' :: rest => '\n' :: replaceCrLf rest
  | '\r' :: rest => '\n' :: replaceCrLf rest
  | c :: rest => c :: replaceCrLf rest

/-- Model of `String.prototype.split('\n')` on a character list: splitting
an empty string yields one empty piece, exactly as in JavaScript. -/
def splitLines : List Char → List (List Char)
  | [] => [[]]
  | '\n' :: rest => [] :: splitLines rest
  | c :: rest =>
      match splitLines rest with
      | [] => [[c]]
      | line :: more => (c :: line) :: more

/-- Model of `String.prototype.trimEnd` on a character list. -/
def trimEndChars (cs : List Char) : List Char :=
  (cs.reverse.dropWhile isJsWhitespace).reverse

/-- Model of `String.prototype.trim` on a character list. -/
def trimChars (cs : List Char) : List Char :=
  trimEndChars (cs.dropWhile isJsWhitespace)

/-- Model of `normalizeBody` of `App.jsx`: normalize line endings to LF,
strip trailing whitespace from every line, rejoin with LF, and trim the
whole string. -/
def normalizeBody (value : String) : String :=
  ⟨trimChars (List.intercalate ['\n'] ((splitLines (replaceCrLf value.data)).map trimEndChars))⟩

/-- The fields of the document written by `submitCreate` that the claims
are about (`uid` and the server timestamps are assigned externally). -/
structure CreatePayload where
  body : String
  pinned : Bool
  sortIndex : Int
  deriving DecidableEq, Repr

/-- Model of `submitCreate` (current, extended revision of the component):
an empty-after-normalization body aborts, otherwise a document with
normalized body, `pinned := false` and
`sortIndex := findGroupTopIndex(orderedNotes, false)` is created — the new
note goes to the top of the unpinned group. -/
def submitCreatePayload (notes : List Note) (draft : String) : Option CreatePayload :=
  let body := normalizeBody draft
  if body = "" then none
  else some { body := body, pinned := false,
              sortIndex := findGroupTopIndex (sortNotes notes) false }

/-- Model of the body written by `handleUpdate` of `App.jsx`: an
empty-after-normalization body aborts, otherwise the normalized body is
persisted. -/
def handleUpdateBody (rawBody : String) : Option String :=
  let body := normalizeBody rawBody
  if body = "" then none else some body

/-- The fields of the update written by `handleTogglePin` (`uid` is the
requester, `updatedAt` is the server timestamp, modelled as `now`). -/
structure TogglePinPayload where
  pinned : Bool
  sortIndex : Int
  updatedAt : Int
  deriving DecidableEq, Repr

/-- Model of `handleTogglePin` of `App.jsx`: the pinned flag is flipped,
the sort index is reassigned with `findPinnedTopIndex` when pinning and
`findNextSortIndex(orderedNotes, false)` when unpinning, and the timestamp
is refreshed. -/
def handleTogglePinPayload (orderedNotes : List Note) (note : Note) (now : Int) : TogglePinPayload :=
  let nextPinned := !note.pinned
  { pinned := nextPinned
  , sortIndex :=
      if nextPinned then findPinnedTopIndex orderedNotes
      else findNextSortIndex orderedNotes false
  , updatedAt := now }

/-- Model of the `reordered.forEach((note, index) => ...)` loop of the
reorder reconciliation: emit `(id, index)` exactly for the notes whose
current sort index differs from their new position. -/
def mkUpdatesFrom (index : Nat) : List Note → List (String × Int)
  | [] => []
  | note :: rest =>
      if getSortIndex note ≠ some (index : Int) then
        (note.id, (index : Int)) :: mkUpdatesFrom (index + 1) rest
      else mkUpdatesFrom (index + 1) rest

/-- Every note of the list stamped with its position as sort index (the
state of the group after the emitted batch is applied). -/
def renumberFrom (index : Nat) : List Note → List Note
  | [] => []
  | note :: rest => { note with sortIndex := some (index : Int) } :: renumberFrom (index + 1) rest

/-- Application of one emitted index map to a single note: the note's new
sort index if its id is in the map, the note unchanged otherwise. -/
def applyUpdate (updates : List (String × Int)) (note : Note) : Note :=
  match updates.lookup note.id with
  | some i => { note with sortIndex := some i }
  | none => note

/-- Application of an emitted index map to a note collection (the effect of
the committed Firestore batch on the local snapshot). -/
def applyUpdates (notes : List Note) (updates : List (String × Int)) : List Note :=
  notes.map (applyUpdate updates)

/-- The splice-and-renumber step of the reorder reconciliation: remove the
moving note at `fromIndex`, reinsert it at `toIndex`, emit the changed
indices. -/
def reorderUpdates (currentGroup : List Note) (fromIndex toIndex : Nat) : List (String × Int) :=
  match currentGroup[fromIndex]? with
  | none => []
  | some moved => mkUpdatesFrom 0 ((currentGroup.eraseIdx fromIndex).insertIdx toIndex moved)

/-- Model of `reorderWithinGroup` (extended revision of the component; the
same steps are inlined in `handleDrop` of `App.jsx`): locate the moving
note in its group, clamp the insertion position, compensate for
removal-then-insertion, no-op when the position is unchanged, otherwise
splice and emit the changed indices. -/
def reorderWithinGroup (orderedNotes : List Note) (targetPinned : Bool)
    (activeDragId : String) (insertIndex : Int) : List (String × Int) :=
  let currentGroup := orderedNotes.filter (fun item => item.pinned == targetPinned)
  match currentGroup.findIdx? (fun item => item.id == activeDragId) with
  | none => []
  | some fromIndex =>
      let safeInsertIndex := max 0 (min insertIndex (currentGroup.length : Int))
      let toIndex : Nat :=
        if (fromIndex : Int) < safeInsertIndex then (safeInsertIndex - 1).toNat
        else safeInsertIndex.toNat
      if fromIndex = toIndex then []
      else reorderUpdates currentGroup fromIndex toIndex

/-- The drop indicator kept in component state: target group and insertion
position inside it. -/
structure DropIndicator where
  pinned : Bool
  index : Int
  deriving DecidableEq, Repr

/-- The observable outcome of a drop: the error message surfaced to the
user (if any) and the emitted index updates (empty means no persisted
write). -/
structure DropOutcome where
  errorMessage : Option String
  updates : List (String × Int)
  deriving DecidableEq, Repr

/-- The cross-group rejection message of `handleDrop`. -/
def crossGroupMessage : String :=
  "ピン留め中のメモと通常メモは別グループで並び替えてください。"

/-- Tail of `handleDrop` (current, extended revision), reached when no
indicator matching the dragged note's own group was consulted: self-drop
and unknown-drag guards, cross-group rejection, then `reorderWithinGroup`
at the target's position (overridden by a target-group indicator). -/
def handleDropFallback (orderedNotes : List Note) (targetNote : Note) (activeDragId : String)
    (dropIndicator : Option DropIndicator) : DropOutcome :=
  if activeDragId = targetNote.id then { errorMessage := none, updates := [] }
  else
    match orderedNotes.find? (fun item => item.id == activeDragId) with
    | none => { errorMessage := none, updates := [] }
    | some draggingNote =>
        if draggingNote.pinned ≠ targetNote.pinned then
          { errorMessage := some crossGroupMessage, updates := [] }
        else
          let targetPinned := targetNote.pinned
          let currentGroup := orderedNotes.filter (fun item => item.pinned == targetPinned)
          let insertIndex : Int :=
            match dropIndicator with
            | some indicator =>
                if indicator.pinned = targetPinned then indicator.index
                else
                  match currentGroup.findIdx? (fun item => item.id == targetNote.id) with
                  | none => -1
                  | some k => (k : Int)
            | none =>
                match currentGroup.findIdx? (fun item => item.id == targetNote.id) with
                | none => -1
                | some k => (k : Int)
          if insertIndex < 0 then { errorMessage := none, updates := [] }
          else
            { errorMessage := none,
              updates := reorderWithinGroup orderedNotes targetPinned activeDragId insertIndex }

/-- Model of `handleDrop` (current, extended revision of the component;
`db` and `user` assumed present, they are external collaborators): when the
drop indicator matches the dragged note's own pinned group, the drop is
handled as an own-group reorder at the indicator's position and the target
note is never consulted; otherwise control falls through to
`handleDropFallback`. -/
def handleDrop (orderedNotes : List Note) (targetNote : Note) (activeDragId : String)
    (dropIndicator : Option DropIndicator) : DropOutcome :=
  if activeDragId = "" then { errorMessage := none, updates := [] }
  else
    match dropIndicator, orderedNotes.find? (fun item => item.id == activeDragId) with
    | some indicator, some draggingNote =>
        if indicator.pinned = draggingNote.pinned then
          { errorMessage := none,
            updates := reorderWithinGroup orderedNotes draggingNote.pinned activeDragId
              indicator.index }
        else handleDropFallback orderedNotes targetNote activeDragId dropIndicator
    | _, _ => handleDropFallback orderedNotes targetNote activeDragId dropIndicator

/-- The two gestures a released swipe can trigger. -/
inductive SwipeAction where
  | edit
  | delete
  deriving DecidableEq, Repr

/-- Swipe trigger threshold in pixels (`SWIPE_TRIGGER_PX`). -/
def SWIPE_TRIGGER_PX : ℚ := 72

/-- Horizontal-dominance factor of the swipe classifier, 1.25 (the swipe
direction ratio constant of the source). -/
def swipeDirectionRatio : ℚ := 1.25

/-- Model of the tail of `handleTouchEnd` (extended revision of the
component), reached on touch release with no active drag: below the trigger
threshold or without horizontal dominance nothing happens; otherwise a
rightward swipe opens edit and a leftward swipe triggers delete. -/
def classifyTouchEndSwipe (deltaX deltaY : ℚ) : Option SwipeAction :=
  let absDeltaX := |deltaX|
  let absDeltaY := |deltaY|
  if absDeltaX < SWIPE_TRIGGER_PX ∨ absDeltaX < absDeltaY * swipeDirectionRatio then none
  else if deltaX > 0 then some SwipeAction.edit
  else some SwipeAction.delete

/-- The authenticated user object, reduced to the fields the allowlist
check reads. -/
structure AuthUser where
  email : Option String
  uid : String
  deriving DecidableEq, Repr

/-- The three hard-coded allowed addresses (`ALLOWED_USER_EMAILS`). -/
def ALLOWED_USER_EMAILS : List String :=
  ["gorizo.5170@gmail.com", "n.nanami73@gmail.com", "berkana.work@gmail.com"]

/-- Model of `normalizeEmail`: a non-string becomes the empty string,
otherwise the address is trimmed and lowercased. -/
def normalizeEmail : Option String → String
  | none => ""
  | some value => ⟨(trimChars value.data).map Char.toLower⟩

/-- Model of `isAllowedUser`: membership of the normalized address in the
allowlist. -/
def isAllowedUser (user : AuthUser) : Bool :=
  ALLOWED_USER_EMAILS.contains (normalizeEmail user.email)

/-- The slice of component state the auth effect touches. -/
structure AppState where
  user : Option AuthUser
  notes : List Note
  errorMessage : String
  authLoading : Bool
  deriving DecidableEq, Repr

/-- Component state before the first auth callback. -/
def initialAppState : AppState :=
  { user := none, notes := [], errorMessage := "", authLoading := true }

/-- The rejection message shown to a disallowed account. -/
def disallowedAccountMessage : String :=
  "このアカウントは利用できません。許可済みアカウントでログインしてください。"

/-- Model of the `onAuthStateChanged` callback (extended revision of the
component): a signed-in user failing the allowlist is rejected — state
cleared, message shown — otherwise the user is stored. -/
def onAuthStateChangedStep (s : AppState) (nextUser : Option AuthUser) : AppState :=
  match nextUser with
  | some u =>
      if !isAllowedUser u then
        { s with user := none, notes := [], authLoading := false,
                 errorMessage := disallowedAccountMessage }
      else
        { s with user := some u, authLoading := false }
  | none => { s with user := none, authLoading := false }

/-- Whether the auth callback initiates `signOut` for this event: exactly
when a signed-in user fails the allowlist. -/
def signOutRequested : Option AuthUser → Bool
  | some u => !isAllowedUser u
  | none => false

/-- The component state after a sequence of auth callbacks. -/
def runAuth (s : AppState) : List (Option AuthUser) → AppState
  | [] => s
  | e :: es => runAuth (onAuthStateChangedStep s e) es

/-- Sample pinned note with the positive sort index 5. -/
def pinnedNote5 : Note :=
  { id := "p", pinned := true, sortIndex := some 5, updatedAt := some 100, body := "P" }

/-- Sample pinned note with the negative sort index -3. -/
def pinnedNoteNeg : Note :=
  { id := "q", pinned := true, sortIndex := some (-3), updatedAt := some 100, body := "Q" }

/-- Sample unpinned note with no sort index. -/
def unindexedNote : Note :=
  { id := "u", pinned := false, sortIndex := none, updatedAt := some 100, body := "U" }

/-- The note created by the C5 counterexample scenario, as it arrives in
the next snapshot (store-assigned id "b", server timestamp 200, sort index
`findGroupTopIndex([A(0)], false) = -1`). -/
def createdNote : Note :=
  { id := "b", pinned := false, sortIndex := some (-1), updatedAt := some 200, body := "memo" }

/-- Sample signed-in user on the allowlist. -/
def allowedUser : AuthUser :=
  { email := some "gorizo.5170@gmail.com", uid := "owner" }

/-- The array index at which the moving note lands after the
removal-then-insertion of the reorder: the insertion position clamped to
`[0, length]`, minus one when it lies beyond the moving note's current
position. -/
def reorderTargetIndex (g : List Note) (fromIndex : Nat) (pos : Int) : Nat :=
  let safeInsertIndex := max 0 (min pos (g.length : Int))
  if (fromIndex : Int) < safeInsertIndex then (safeInsertIndex - 1).toNat
  else safeInsertIndex.toNat

theorem idCompare_le_iff {x y : String} : idCompare x y ≤ 0 ↔ x ≤ y := by
  unfold idCompare
  split_ifs with h1 h2
  · exact iff_of_true (by norm_num) h1.le
  · exact iff_of_true le_rfl h2.le
  · have h : y < x := ((lt_trichotomy x y).resolve_left h1).resolve_left h2
    exact iff_of_false (by norm_num) (not_le.mpr h)

theorem idCompare_lt_iff {x y : String} : idCompare x y < 0 ↔ x < y := by
  unfold idCompare
  split_ifs with h1 h2
  · exact iff_of_true (by norm_num) h1
  · exact iff_of_false (by norm_num) (h2 ▸ lt_irrefl x)
  · have h : y < x := ((lt_trichotomy x y).resolve_left h1).resolve_left h2
    exact iff_of_false (by norm_num) (not_lt.mpr h.le)

theorem cmpUpdatedThenId_le_iff {a b : Note} :
    cmpUpdatedThenId a b ≤ 0 ↔ noteKeyUpd a ≤ noteKeyUpd b := by
  unfold cmpUpdatedThenId noteKeyUpd
  rw [Prod.Lex.le_iff]
  dsimp only
  by_cases h : toMillis b.updatedAt - toMillis a.updatedAt ≠ 0
  · rw [if_pos h]
    constructor
    · intro hle
      left
      omega
    · rintro (hlt | ⟨heq, _⟩) <;> omega
  · rw [if_neg h]
    push_neg at h
    constructor
    · intro hle
      right
      exact ⟨by omega, idCompare_le_iff.mp hle⟩
    · rintro (hlt | ⟨heq, hid⟩)
      · omega
      · exact idCompare_le_iff.mpr hid

theorem cmpUpdatedThenId_lt_iff {a b : Note} :
    cmpUpdatedThenId a b < 0 ↔ noteKeyUpd a < noteKeyUpd b := by
  unfold cmpUpdatedThenId noteKeyUpd
  rw [Prod.Lex.lt_iff]
  dsimp only
  by_cases h : toMillis b.updatedAt - toMillis a.updatedAt ≠ 0
  · rw [if_pos h]
    constructor
    · intro hle
      left
      omega
    · rintro (hlt | ⟨heq, _⟩) <;> omega
  · rw [if_neg h]
    push_neg at h
    constructor
    · intro hle
      right
      exact ⟨by omega, idCompare_lt_iff.mp hle⟩
    · rintro (hlt | ⟨heq, hid⟩)
      · omega
      · exact idCompare_lt_iff.mpr hid

theorem cmpIndexThen_le_iff {a b : Note} :
    cmpIndexThen a b ≤ 0 ↔ noteKeyIdx a ≤ noteKeyIdx b := by
  unfold cmpIndexThen noteKeyIdx
  rw [Prod.Lex.le_iff]
  dsimp only
  cases hia : getSortIndex a <;> cases hib : getSortIndex b
  · rw [Prod.Lex.le_iff]
    dsimp only
    simp only [Option.isSome_none, Option.getD_none, Bool.false_eq_true, if_false,
      lt_self_iff_false, false_or, eq_self_iff_true, true_and]
    exact cmpUpdatedThenId_le_iff
  · rename_i j
    exact iff_of_false (by norm_num) (by norm_num)
  · rename_i i
    exact iff_of_true (by norm_num) (Or.inl (by norm_num))
  · rename_i i j
    rw [Prod.Lex.le_iff]
    dsimp only
    simp only [Option.isSome_some, eq_self_iff_true, if_true, Option.getD_some,
      lt_self_iff_false, false_or, true_and]
    by_cases hij : i = j
    · subst hij
      rw [if_neg (by omega)]
      simp only [lt_self_iff_false, false_or, eq_self_iff_true, true_and]
      exact cmpUpdatedThenId_le_iff
    · rw [if_pos hij]
      constructor
      · intro h
        exact Or.inl (by omega)
      · rintro (h | ⟨he, -⟩)
        · omega
        · exact absurd he hij

theorem cmpIndexThen_lt_iff {a b : Note} :
    cmpIndexThen a b < 0 ↔ noteKeyIdx a < noteKeyIdx b := by
  unfold cmpIndexThen noteKeyIdx
  rw [Prod.Lex.lt_iff]
  dsimp only
  cases hia : getSortIndex a <;> cases hib : getSortIndex b
  · rw [Prod.Lex.lt_iff]
    dsimp only
    simp only [Option.isSome_none, Option.getD_none, Bool.false_eq_true, if_false,
      lt_self_iff_false, false_or, eq_self_iff_true, true_and]
    exact cmpUpdatedThenId_lt_iff
  · rename_i j
    exact iff_of_false (by norm_num) (by norm_num)
  · rename_i i
    exact iff_of_true (by norm_num) (Or.inl (by norm_num))
  · rename_i i j
    rw [Prod.Lex.lt_iff]
    dsimp only
    simp only [Option.isSome_some, eq_self_iff_true, if_true, Option.getD_some,
      lt_self_iff_false, false_or, true_and]
    by_cases hij : i = j
    · subst hij
      rw [if_neg (by omega)]
      simp only [lt_self_iff_false, false_or, eq_self_iff_true, true_and]
      exact cmpUpdatedThenId_lt_iff
    · rw [if_pos hij]
      constructor
      · intro h
        exact Or.inl (by omega)
      · rintro (h | ⟨he, -⟩)
        · omega
        · exact absurd he hij

theorem cmpNotes_le_iff {a b : Note} : cmpNotes a b ≤ 0 ↔ noteKey a ≤ noteKey b := by
  unfold cmpNotes noteKey
  rw [Prod.Lex.le_iff]
  dsimp only
  cases ha : a.pinned <;> cases hb : b.pinned
  · rw [if_neg (by simp)]
    simp only [lt_self_iff_false, false_or, eq_self_iff_true, true_and]
    exact cmpIndexThen_le_iff
  · exact iff_of_false (by norm_num) (by norm_num)
  · exact iff_of_true (by norm_num) (Or.inl (by norm_num))
  · rw [if_neg (by simp)]
    simp only [lt_self_iff_false, false_or, eq_self_iff_true, true_and]
    exact cmpIndexThen_le_iff

theorem cmpNotes_lt_iff {a b : Note} : cmpNotes a b < 0 ↔ noteKey a < noteKey b := by
  unfold cmpNotes noteKey
  rw [Prod.Lex.lt_iff]
  dsimp only
  cases ha : a.pinned <;> cases hb : b.pinned
  · rw [if_neg (by simp)]
    simp only [lt_self_iff_false, false_or, eq_self_iff_true, true_and]
    exact cmpIndexThen_lt_iff
  · exact iff_of_false (by norm_num) (by norm_num)
  · exact iff_of_true (by norm_num) (Or.inl (by norm_num))
  · rw [if_neg (by simp)]
    simp only [lt_self_iff_false, false_or, eq_self_iff_true, true_and]
    exact cmpIndexThen_lt_iff

instance : IsTotal Note noteLE :=
  ⟨fun a b => by
    rcases le_total (noteKey a) (noteKey b) with h | h
    · exact Or.inl (cmpNotes_le_iff.mpr h)
    · exact Or.inr (cmpNotes_le_iff.mpr h)⟩

instance : IsTrans Note noteLE :=
  ⟨fun a b c hab hbc =>
    cmpNotes_le_iff.mpr (le_trans (cmpNotes_le_iff.mp hab) (cmpNotes_le_iff.mp hbc))⟩

theorem sortNotes_perm (items : List Note) : (sortNotes items).Perm items :=
  List.perm_insertionSort noteLE items

theorem sortNotes_sorted (items : List Note) : (sortNotes items).Sorted noteLE :=
  List.sorted_insertionSort noteLE items

theorem noteKey_eq_id {a b : Note} (h : noteKey a = noteKey b) : a.id = b.id := by
  have := congrArg (fun k : ℕ ×ₗ ℕ ×ₗ ℤ ×ₗ ℤ ×ₗ String =>
    (ofLex (ofLex (ofLex (ofLex k).2).2).2).2) h
  simpa [noteKey, noteKeyIdx, noteKeyUpd] using this

theorem noteLE_antisymm_id {a b : Note} (hab : noteLE a b) (hba : noteLE b a) :
    a.id = b.id := by
  have h1 : noteKey a ≤ noteKey b := cmpNotes_le_iff.mp hab
  have h2 : noteKey b ≤ noteKey a := cmpNotes_le_iff.mp hba
  exact noteKey_eq_id (le_antisymm h1 h2)

theorem cmpNotes_eq_zero_id {a b : Note} (h : cmpNotes a b = 0) : a.id = b.id := by
  have h1 : noteKey a ≤ noteKey b := cmpNotes_le_iff.mp (by omega)
  have h2 : ¬ noteKey a < noteKey b := fun hlt => by
    have := cmpNotes_lt_iff.mpr hlt
    omega
  exact noteKey_eq_id (le_antisymm h1 (not_lt.mp h2))

theorem sortNotes_idempotent (items : List Note) :
    sortNotes (sortNotes items) = sortNotes items :=
  List.Sorted.insertionSort_eq (sortNotes_sorted items)

theorem eq_of_perm_of_sorted_antisymm {l₁ l₂ : List Note}
    (H : ∀ a ∈ l₁, ∀ b ∈ l₁, noteLE a b → noteLE b a → a = b)
    (p : l₁.Perm l₂) (s₁ : l₁.Sorted noteLE) (s₂ : l₂.Sorted noteLE) : l₁ = l₂ := by
  induction l₁ generalizing l₂ with
  | nil => exact p.nil_eq
  | cons a t ih =>
    cases l₂ with
    | nil =>
      have hlen := p.length_eq
      simp at hlen
    | cons b t₂ =>
      have hab : a = b := by
        by_cases h : a = b
        · exact h
        · have hbmem : b ∈ a :: t := p.symm.subset (List.mem_cons_self b t₂)
          have hamem : a ∈ b :: t₂ := p.subset (List.mem_cons_self a t)
          have hbt : b ∈ t := by
            rcases List.mem_cons.mp hbmem with h1 | h1
            · exact absurd h1.symm h
            · exact h1
          have hat : a ∈ t₂ := by
            rcases List.mem_cons.mp hamem with h1 | h1
            · exact absurd h1 h
            · exact h1
          have h1 : noteLE a b := List.rel_of_sorted_cons s₁ b hbt
          have h2 : noteLE b a := List.rel_of_sorted_cons s₂ a hat
          exact H a (List.mem_cons_self a t) b (List.mem_cons_of_mem a hbt) h1 h2
      subst hab
      have ht : t = t₂ :=
        ih (fun x hx y hy => H x (List.mem_cons_of_mem a hx) y (List.mem_cons_of_mem a hy))
          p.cons_inv s₁.of_cons s₂.of_cons
      rw [ht]

theorem antisymm_of_nodup_ids {l : List Note} (h : (l.map Note.id).Nodup) :
    ∀ a ∈ l, ∀ b ∈ l, noteLE a b → noteLE b a → a = b :=
  fun _ ha _ hb h1 h2 => List.inj_on_of_nodup_map h ha hb (noteLE_antisymm_id h1 h2)

theorem sortNotes_eq_of_perm {l l₂ : List Note} (hperm : l.Perm l₂)
    (hnd : (l.map Note.id).Nodup) : sortNotes l = sortNotes l₂ := by
  have hnd₁ : ((sortNotes l).map Note.id).Nodup :=
    (((sortNotes_perm l).map Note.id).nodup_iff).mpr hnd
  exact eq_of_perm_of_sorted_antisymm (antisymm_of_nodup_ids hnd₁)
    ((sortNotes_perm l).trans (hperm.trans (sortNotes_perm l₂).symm))
    (sortNotes_sorted l) (sortNotes_sorted l₂)

theorem spec_tail_sign_eq (a b : Note) :
    (cmpUpdatedThenId a b).sign =
      (match specUpdatedStep a b with
        | some r => r
        | none => idCompare a.id b.id).sign := by
  unfold cmpUpdatedThenId specUpdatedStep
  dsimp only
  by_cases hd : toMillis a.updatedAt = toMillis b.updatedAt
  · rw [if_neg (by omega), if_pos hd]
  · rw [if_pos (by omega), if_neg hd]
    by_cases hlt : toMillis b.updatedAt < toMillis a.updatedAt
    · rw [if_pos hlt]
      rw [Int.sign_eq_neg_one_iff_neg.mpr (by omega)]
      rfl
    · rw [if_neg hlt]
      rw [Int.sign_eq_one_iff_pos.mpr (by omega)]
      rfl

theorem spec_sign_eq (a b : Note) : (cmpNotes a b).sign = (specCompare a b).sign := by
  unfold cmpNotes specCompare specPinnedStep cmpIndexThen specIndexStep
  by_cases hp : a.pinned = b.pinned
  · rw [if_neg (not_not_intro hp), if_pos hp]
    dsimp only
    cases hia : getSortIndex a <;> cases hib : getSortIndex b
    · dsimp only
      exact spec_tail_sign_eq a b
    · rfl
    · rfl
    · rename_i i j
      dsimp only
      by_cases hij : i = j
      · subst hij
        rw [if_neg (by omega), if_pos rfl]
        dsimp only
        exact spec_tail_sign_eq a b
      · rw [if_pos hij, if_neg hij]
        dsimp only
        by_cases hlt : i < j
        · rw [if_pos hlt, Int.sign_eq_neg_one_iff_neg.mpr (by omega)]
          rfl
        · rw [if_neg hlt, Int.sign_eq_one_iff_pos.mpr (by omega)]
          rfl
  · rw [if_pos hp, if_neg hp]

theorem sign_le_zero_iff {x : Int} : x.sign ≤ 0 ↔ x ≤ 0 := by
  rcases lt_trichotomy x 0 with h | h | h
  · have hs : x.sign = -1 := Int.sign_eq_neg_one_iff_neg.mpr h
    exact iff_of_true (by omega) h.le
  · subst h
    exact iff_of_true (by decide) le_rfl
  · have hs : x.sign = 1 := Int.sign_eq_one_iff_pos.mpr h
    exact iff_of_false (by omega) (not_le.mpr h)

theorem cmpNotes_le_iff_specCompare_le {a b : Note} :
    cmpNotes a b ≤ 0 ↔ specCompare a b ≤ 0 := by
  rw [← sign_le_zero_iff, spec_sign_eq, sign_le_zero_iff]

/-- C1: the Ordering Engine `sortNotes` orders every collection of notes
exactly by the four-step comparator: the output is a permutation of the
input, it is sorted by the spec's four-step comparator (pinned before
unpinned; both indices defined and differing ascending, a lone defined
index first; last-updated descending with a missing timestamp as epoch 0;
identifier ascending as final tie-break), and the implementation comparator
agrees in sign with the four-step comparator on every pair of notes. -/
theorem sortNotes_ordering_engine (items : List Note) :
    (sortNotes items).Perm items ∧
    (sortNotes items).Sorted (fun a b => specCompare a b ≤ 0) ∧
    ∀ a b : Note, (cmpNotes a b).sign = (specCompare a b).sign :=
  ⟨sortNotes_perm items,
   List.Pairwise.imp (fun h => cmpNotes_le_iff_specCompare_le.mp h) (sortNotes_sorted items),
   spec_sign_eq⟩

/-- C3: the comparator of `sortNotes` is a strict total order on notes with
distinct identifiers — it is total, transitive, and two notes comparing
equal always share an identifier — and ordering is idempotent and
independent of the input iteration order: sorting a sorted list returns it
unchanged, and permuted inputs with distinct identifiers sort to the same
list. -/
theorem sortNotes_total_order_idempotent :
    (∀ a b : Note, cmpNotes a b = 0 → a.id = b.id) ∧
    (∀ a b : Note, noteLE a b ∨ noteLE b a) ∧
    (∀ a b c : Note, noteLE a b → noteLE b c → noteLE a c) ∧
    (∀ items : List Note, sortNotes (sortNotes items) = sortNotes items) ∧
    (∀ l l₂ : List Note, l.Perm l₂ → (l.map Note.id).Nodup → sortNotes l = sortNotes l₂) :=
  ⟨fun _ _ h => cmpNotes_eq_zero_id h,
   fun a b => total_of noteLE a b,
   fun _ _ _ hab hbc => trans_of noteLE hab hbc,
   sortNotes_idempotent,
   fun _ _ hp hn => sortNotes_eq_of_perm hp hn⟩

/-- Witness for C3: two permuted two-note lists with distinct identifiers
sort to the same list. -/
theorem sortNotes_total_order_idempotent_witness :
    [noteA, noteB].Perm [noteB, noteA] ∧
    ([noteA, noteB].map Note.id).Nodup ∧
    sortNotes [noteA, noteB] = sortNotes [noteB, noteA] :=
  ⟨by decide, by decide,
   sortNotes_total_order_idempotent.2.2.2.2 [noteA, noteB] [noteB, noteA]
     (by decide) (by decide)⟩

theorem foldl_minStep_le_init : ∀ (l : List Note) (init : Int), l.foldl minStep init ≤ init
  | [], _ => le_refl _
  | n :: t, init => by
    have h1 : minStep init n ≤ init := by
      unfold minStep
      cases getSortIndex n
      · exact le_refl _
      · exact min_le_left _ _
    calc (n :: t).foldl minStep init = t.foldl minStep (minStep init n) := rfl
      _ ≤ minStep init n := foldl_minStep_le_init t _
      _ ≤ init := h1

theorem foldl_minStep_le_mem {n : Note} {i : Int} :
    ∀ {l : List Note}, n ∈ l → getSortIndex n = some i →
      ∀ init : Int, l.foldl minStep init ≤ i := by
  intro l
  induction l with
  | nil =>
    intro h
    exact absurd h (List.not_mem_nil n)
  | cons m t ih =>
    intro hmem hi init
    rcases List.mem_cons.mp hmem with rfl | hmem2
    · calc (n :: t).foldl minStep init = t.foldl minStep (minStep init n) := rfl
        _ ≤ minStep init n := foldl_minStep_le_init t _
        _ ≤ i := by
            unfold minStep
            rw [hi]
            exact min_le_right _ _
    · exact ih hmem2 hi _

theorem foldl_minStep_ge {m : Int} :
    ∀ (l : List Note), (∀ n ∈ l, ∀ j, getSortIndex n = some j → m ≤ j) →
      ∀ init, min init m ≤ l.foldl minStep init
  | [], _, init => min_le_left _ _
  | n :: t, h, init => by
    show min init m ≤ t.foldl minStep (minStep init n)
    have hstep : min init m ≤ min (minStep init n) m := by
      unfold minStep
      cases hg : getSortIndex n
      · exact le_refl _
      · rename_i j
        dsimp only
        have := h n (List.mem_cons_self n t) j hg
        omega
    calc min init m ≤ min (minStep init n) m := hstep
      _ ≤ t.foldl minStep (minStep init n) :=
          foldl_minStep_ge t (fun x hx => h x (List.mem_cons_of_mem n hx)) _

theorem foldl_minStep_eq_min {l : List Note} {m : Int}
    (hm : m ∈ l.filterMap getSortIndex)
    (hlb : ∀ x ∈ l.filterMap getSortIndex, m ≤ x) (init : Int) :
    l.foldl minStep init = min init m := by
  obtain ⟨n, hn, hni⟩ := List.mem_filterMap.mp hm
  refine le_antisymm
    (le_min (foldl_minStep_le_init l init) (foldl_minStep_le_mem hn hni init)) ?_
  exact foldl_minStep_ge l (fun x hx j hj => hlb j (List.mem_filterMap.mpr ⟨x, hx, hj⟩)) init

theorem foldl_minStep_none :
    ∀ (l : List Note), (∀ n ∈ l, getSortIndex n = none) →
      ∀ init : Int, l.foldl minStep init = init
  | [], _, _ => rfl
  | n :: t, h, init => by
    show t.foldl minStep (minStep init n) = init
    have h0 : minStep init n = init := by
      unfold minStep
      rw [h n (List.mem_cons_self n t)]
    rw [h0]
    exact foldl_minStep_none t (fun x hx => h x (List.mem_cons_of_mem n hx)) init

theorem foldl_maxStep_ge_init : ∀ (l : List Note) (init : Int), init ≤ l.foldl maxStep init
  | [], _ => le_refl _
  | n :: t, init => by
    have h1 : init ≤ maxStep init n := by
      unfold maxStep
      cases getSortIndex n
      · exact le_refl _
      · exact le_max_left _ _
    calc init ≤ maxStep init n := h1
      _ ≤ t.foldl maxStep (maxStep init n) := foldl_maxStep_ge_init t _

theorem foldl_maxStep_ge_mem {n : Note} {i : Int} :
    ∀ {l : List Note}, n ∈ l → getSortIndex n = some i →
      ∀ init : Int, i ≤ l.foldl maxStep init := by
  intro l
  induction l with
  | nil =>
    intro h
    exact absurd h (List.not_mem_nil n)
  | cons m t ih =>
    intro hmem hi init
    rcases List.mem_cons.mp hmem with rfl | hmem2
    · calc i ≤ maxStep init n := by
            unfold maxStep
            rw [hi]
            exact le_max_right _ _
        _ ≤ t.foldl maxStep (maxStep init n) := foldl_maxStep_ge_init t _
    · exact ih hmem2 hi _

theorem foldl_maxStep_none :
    ∀ (l : List Note), (∀ n ∈ l, getSortIndex n = none) →
      ∀ init : Int, l.foldl maxStep init = init
  | [], _, _ => rfl
  | n :: t, h, init => by
    show t.foldl maxStep (maxStep init n) = init
    have h0 : maxStep init n = init := by
      unfold maxStep
      rw [h n (List.mem_cons_self n t)]
    rw [h0]
    exact foldl_maxStep_none t (fun x hx => h x (List.mem_cons_of_mem n hx)) init

theorem isEmpty_false_of_mem {l : List Note} {x : Note} (h : x ∈ l) : l.isEmpty = false := by
  cases l
  · exact absurd h (List.not_mem_nil x)
  · exact List.isEmpty_cons

/-- C4 counterexample: for the one-element pinned group whose least defined
sort index is the positive number 5, `findGroupTopIndex` returns `-1`, not
`5 - 1 = 4` as the claim states for every non-empty group. -/
theorem findGroupTopIndex_counterexample :
    findGroupTopIndex [pinnedNote5] true = -1 ∧
    [pinnedNote5].filter (fun note => note.pinned == true) ≠ [] ∧
    (5 : Int) ∈ ([pinnedNote5].filter (fun note => note.pinned == true)).filterMap getSortIndex ∧
    (∀ x ∈ ([pinnedNote5].filter (fun note => note.pinned == true)).filterMap getSortIndex,
      (5 : Int) ≤ x) ∧
    findGroupTopIndex [pinnedNote5] true ≠ 5 - 1 := by
  decide

/-- C4 (amended): `findGroupTopIndex` returns 0 for an empty group; for a
group whose least defined sort index is `m` it returns `min 0 m - 1` — which
equals `m - 1` exactly when `m ≤ 0` and is `-1` when `m` is positive — and
for a non-empty group with no defined index it returns `-1`. -/
theorem findGroupTopIndex_spec (items : List Note) (pinned : Bool) :
    (items.filter (fun note => note.pinned == pinned) = [] →
      findGroupTopIndex items pinned = 0) ∧
    (∀ m : Int,
      m ∈ (items.filter (fun note => note.pinned == pinned)).filterMap getSortIndex →
      (∀ x ∈ (items.filter (fun note => note.pinned == pinned)).filterMap getSortIndex, m ≤ x) →
      findGroupTopIndex items pinned = min 0 m - 1) ∧
    (items.filter (fun note => note.pinned == pinned) ≠ [] →
      (items.filter (fun note => note.pinned == pinned)).filterMap getSortIndex = [] →
      findGroupTopIndex items pinned = -1) := by
  refine ⟨?_, ?_, ?_⟩
  · intro h
    unfold findGroupTopIndex
    rw [h]
    rfl
  · intro m hm hlb
    have key := foldl_minStep_eq_min hm hlb 0
    obtain ⟨n, hn, -⟩ := List.mem_filterMap.mp hm
    have hne : (items.filter (fun note => note.pinned == pinned)).isEmpty = false :=
      isEmpty_false_of_mem hn
    unfold findGroupTopIndex
    rw [hne, key]
    rfl
  · intro hne hnone
    have hall : ∀ n ∈ items.filter (fun note => note.pinned == pinned), getSortIndex n = none :=
      List.forall_none_of_filterMap_eq_nil hnone
    have hz := foldl_minStep_none _ hall 0
    have hempty : (items.filter (fun note => note.pinned == pinned)).isEmpty = false := by
      rcases hL : items.filter (fun note => note.pinned == pinned) with _ | ⟨x, xs⟩
      · exact absurd hL hne
      · rw [hL]
        exact List.isEmpty_cons
    unfold findGroupTopIndex
    rw [hempty, hz]
    rfl

/-- Witness for C4 (amended) at a pinned group with least defined index -3:
the helper returns `min 0 (-3) - 1 = -4`. -/
theorem findGroupTopIndex_spec_witness :
    (-3 : Int) ∈ ([pinnedNoteNeg].filter (fun note => note.pinned == true)).filterMap getSortIndex ∧
    findGroupTopIndex [pinnedNoteNeg] true = min 0 (-3) - 1 :=
  ⟨by decide,
   (findGroupTopIndex_spec [pinnedNoteNeg] true).2.1 (-3) (by decide) (by decide)⟩

theorem cmpNotes_of_indices {a b : Note} (hp : a.pinned = b.pinned) {i j : Int}
    (ha : getSortIndex a = some i) (hb : getSortIndex b = some j) (hij : i ≠ j) :
    cmpNotes a b = i - j := by
  unfold cmpNotes cmpIndexThen
  rw [if_neg (not_not_intro hp), ha, hb]
  dsimp only
  rw [if_pos hij]

/-- C5 counterexample: over the snapshot `[A(idx 0)]`, `submitCreate`
assigns the new note sort index `findGroupTopIndex = -1`, not
`nextIndexAfter = max + 1 = 1` as the claim states, and the ordering engine
then places the new note before the existing unpinned note, not after it. -/
theorem submitCreate_counterexample :
    submitCreatePayload [noteA] "memo" =
      some { body := "memo", pinned := false, sortIndex := -1 } ∧
    findNextSortIndex (sortNotes [noteA]) false = 1 ∧
    (-1 : Int) ≠ 1 ∧
    createdNote.sortIndex = some (-1) ∧
    sortNotes [noteA, createdNote] = [createdNote, noteA] := by
  decide

/-- C5 (amended): `submitCreate` persists an unpinned note whose sort
index is `findGroupTopIndex` over the unpinned group — `min(0, minimum
defined unpinned index) - 1`, or 0 when that group is empty — so the new
note is placed at the top of the unpinned group: it sorts before every
unpinned note that has a defined sort index. -/
theorem submitCreate_spec (notes : List Note) (draft : String) (p : CreatePayload)
    (h : submitCreatePayload notes draft = some p) :
    p.pinned = false ∧
    p.body = normalizeBody draft ∧
    p.sortIndex = findGroupTopIndex (sortNotes notes) false ∧
    ((sortNotes notes).filter (fun note => note.pinned == false) = [] → p.sortIndex = 0) ∧
    (∀ n ∈ notes, n.pinned = false → ∀ i, getSortIndex n = some i → p.sortIndex ≤ i - 1) ∧
    (∀ n ∈ notes, n.pinned = false → ∀ i, getSortIndex n = some i →
      ∀ (idNew : String) (ts : Option Int) (bodyNew : String),
        cmpNotes { id := idNew, pinned := false, sortIndex := some p.sortIndex,
                   updatedAt := ts, body := bodyNew } n < 0) := by
  unfold submitCreatePayload at h
  dsimp only at h
  by_cases hb : normalizeBody draft = ""
  · rw [if_pos hb] at h
    cases h
  · rw [if_neg hb] at h
    have hp := Option.some.inj h
    have hbound : ∀ n ∈ notes, n.pinned = false → ∀ i, getSortIndex n = some i →
        p.sortIndex ≤ i - 1 := by
      intro n hn hpin i hi
      have hmem : n ∈ sortNotes notes := (sortNotes_perm notes).mem_iff.mpr hn
      have hfil : n ∈ (sortNotes notes).filter (fun note => note.pinned == false) :=
        List.mem_filter.mpr ⟨hmem, by rw [hpin]; rfl⟩
      have hne : ((sortNotes notes).filter (fun note => note.pinned == false)).isEmpty
          = false := isEmpty_false_of_mem hfil
      have hle := foldl_minStep_le_mem hfil hi 0
      rw [← hp]
      dsimp only
      unfold findGroupTopIndex
      rw [hne, if_neg (show ¬(false = true) from by decide)]
      omega
    refine ⟨by rw [← hp], by rw [← hp], by rw [← hp], ?_, hbound, ?_⟩
    · intro hemp
      rw [← hp]
      dsimp only
      unfold findGroupTopIndex
      rw [hemp]
      rfl
    · intro n hn hpin i hi idNew ts bodyNew
      have hlt := hbound n hn hpin i hi
      have hcmp := @cmpNotes_of_indices
        { id := idNew, pinned := false, sortIndex := some p.sortIndex,
          updatedAt := ts, body := bodyNew } n
        (by rw [hpin]) p.sortIndex i rfl hi (by omega)
      omega

/-- Witness for C5 (amended) at a concrete snapshot and draft: the payload
created over `[noteA]` carries sort index -1, at or below the existing
minimum index 0 minus one. -/
theorem submitCreate_spec_witness :
    submitCreatePayload [noteA] "memo" =
      some { body := "memo", pinned := false, sortIndex := -1 } ∧
    (-1 : Int) ≤ 0 - 1 :=
  ⟨by decide,
   by
    have h := submitCreate_spec [noteA] "memo"
      { body := "memo", pinned := false, sortIndex := -1 } (by decide)
    exact h.2.2.2.2.1 noteA (by decide) (by decide) 0 (by decide)⟩

/-- C6: toggling a note's pinned flag flips the flag, refreshes the
timestamp, and reassigns the sort index to a group edge: pinning assigns an
index at or below every defined pinned index minus one (hence at or below
the minimum minus one), unpinning assigns an index at or above every
defined unpinned index plus one (hence at or above the maximum plus one). -/
theorem handleTogglePin_edge (orderedNotes : List Note) (note : Note) (now : Int) :
    (handleTogglePinPayload orderedNotes note now).pinned = !note.pinned ∧
    (handleTogglePinPayload orderedNotes note now).updatedAt = now ∧
    (note.pinned = false →
      ∀ n ∈ orderedNotes, n.pinned = true → ∀ i, getSortIndex n = some i →
        (handleTogglePinPayload orderedNotes note now).sortIndex ≤ i - 1) ∧
    (note.pinned = true →
      ∀ n ∈ orderedNotes, n.pinned = false → ∀ i, getSortIndex n = some i →
        i + 1 ≤ (handleTogglePinPayload orderedNotes note now).sortIndex) := by
  refine ⟨rfl, rfl, ?_, ?_⟩
  · intro hpin n hn hnp i hi
    unfold handleTogglePinPayload
    dsimp only
    rw [hpin, if_pos (show (!false) = true from rfl)]
    have hfil : n ∈ orderedNotes.filter (fun note => note.pinned) :=
      List.mem_filter.mpr ⟨hn, by rw [hnp]⟩
    have hne : (orderedNotes.filter (fun note => note.pinned)).isEmpty = false :=
      isEmpty_false_of_mem hfil
    have hle := foldl_minStep_le_mem hfil hi 0
    unfold findPinnedTopIndex
    rw [hne, if_neg (show ¬(false = true) from by decide)]
    omega
  · intro hpin n hn hnp i hi
    unfold handleTogglePinPayload
    dsimp only
    rw [hpin, if_neg (show ¬((!true) = true) from by decide)]
    have hfil : n ∈ orderedNotes.filter (fun note => note.pinned == false) :=
      List.mem_filter.mpr ⟨hn, by rw [hnp]; rfl⟩
    have hge := foldl_maxStep_ge_mem hfil hi (-1)
    unfold findNextSortIndex
    omega

/-- Witness for C6: pinning the unpinned `noteA` over a snapshot whose
only pinned note has index 5 assigns an index at or below `5 - 1`. -/
theorem handleTogglePin_edge_witness :
    (handleTogglePinPayload [pinnedNote5, noteA] noteA 1000).sortIndex ≤ 5 - 1 :=
  (handleTogglePin_edge [pinnedNote5, noteA] noteA 1000).2.2.1 (by decide)
    pinnedNote5 (by decide) (by decide) 5 (by decide)

/-- C7: `normalizeBody` normalizes line endings, strips trailing whitespace
per line and trims the whole string — on the scenario input it yields
exactly the expected text — and the bodies persisted by create and edit are
exactly the normalized drafts. -/
theorem normalizeBody_spec :
    normalizeBody "  hello \n\n world  \n" = "hello\n\n world" ∧
    (∀ (notes : List Note) (draft : String) (p : CreatePayload),
      submitCreatePayload notes draft = some p → p.body = normalizeBody draft) ∧
    (∀ rawBody body : String,
      handleUpdateBody rawBody = some body → body = normalizeBody rawBody) := by
  refine ⟨by decide, ?_, ?_⟩
  · intro notes draft p h
    unfold submitCreatePayload at h
    dsimp only at h
    by_cases hb : normalizeBody draft = ""
    · rw [if_pos hb] at h
      cases h
    · rw [if_neg hb] at h
      rw [← Option.some.inj h]
  · intro rawBody body h
    unfold handleUpdateBody at h
    dsimp only at h
    by_cases hb : normalizeBody rawBody = ""
    · rw [if_pos hb] at h
      cases h
    · rw [if_neg hb] at h
      rw [← Option.some.inj h]

/-- Witness for C7: a concrete create over the empty snapshot persists the
normalized draft. -/
theorem normalizeBody_spec_witness :
    submitCreatePayload [] " x \n" = some { body := "x", pinned := false, sortIndex := 0 } ∧
    ({ body := "x", pinned := false, sortIndex := 0 } : CreatePayload).body =
      normalizeBody " x \n" :=
  ⟨by decide,
   normalizeBody_spec.2.1 [] " x \n" { body := "x", pinned := false, sortIndex := 0 } (by decide)⟩

/-- C8 counterexample: the dragged unpinned note "a" has an active
own-group indicator (unpinned, position 2); dropping it onto the pinned
note `p` is not rejected — the drop commits an own-group reorder batch
with no error message, although the dragged and target groups differ. -/
theorem handleDrop_crossGroup_counterexample :
    noteA.pinned = false ∧
    pinnedNote5.pinned = true ∧
    handleDrop [pinnedNote5, noteA, noteB] pinnedNote5 "a"
        (some { pinned := false, index := 2 }) =
      { errorMessage := none, updates := [("b", 0), ("a", 1)] } ∧
    ({ errorMessage := none, updates := [("b", 0), ("a", 1)] } : DropOutcome).updates ≠ [] ∧
    ({ errorMessage := none, updates := [("b", 0), ("a", 1)] } : DropOutcome).errorMessage ≠
      some crossGroupMessage := by
  decide

theorem handleDropFallback_crossGroup (orderedNotes : List Note)
    (targetNote draggingNote : Note) (activeDragId : String)
    (dropIndicator : Option DropIndicator)
    (hta : activeDragId ≠ targetNote.id)
    (hfind : orderedNotes.find? (fun item => item.id == activeDragId) = some draggingNote)
    (hcross : draggingNote.pinned ≠ targetNote.pinned) :
    handleDropFallback orderedNotes targetNote activeDragId dropIndicator =
      { errorMessage := some crossGroupMessage, updates := [] } := by
  unfold handleDropFallback
  rw [if_neg hta, hfind]
  dsimp only
  rw [if_pos hcross]

/-- C8 (amended): a drop whose dragged note sits in the other pinned group
than the target note is rejected — the cross-group message is surfaced and
no index update is emitted — provided no drop indicator matching the
dragged note's own group is active; with such an indicator the drop is
instead handled as an own-group reorder at the indicator's position. -/
theorem handleDrop_crossGroup_rejected (orderedNotes : List Note)
    (targetNote draggingNote : Note) (activeDragId : String)
    (dropIndicator : Option DropIndicator)
    (hid : activeDragId ≠ "") (hta : activeDragId ≠ targetNote.id)
    (hfind : orderedNotes.find? (fun item => item.id == activeDragId) = some draggingNote)
    (hcross : draggingNote.pinned ≠ targetNote.pinned)
    (hind : ∀ indicator, dropIndicator = some indicator →
      indicator.pinned ≠ draggingNote.pinned) :
    handleDrop orderedNotes targetNote activeDragId dropIndicator =
      { errorMessage := some crossGroupMessage, updates := [] } := by
  unfold handleDrop
  rw [if_neg hid]
  cases dropIndicator with
  | none =>
    rw [hfind]
    dsimp only
    exact handleDropFallback_crossGroup orderedNotes targetNote draggingNote activeDragId
      none hta hfind hcross
  | some indicator =>
    rw [hfind]
    dsimp only
    rw [if_neg (hind indicator rfl)]
    exact handleDropFallback_crossGroup orderedNotes targetNote draggingNote activeDragId
      (some indicator) hta hfind hcross

/-- Witness for C8 (amended): dropping the unpinned note `u` onto the
pinned note `p` with no active indicator is rejected with the cross-group
message and an empty update list. -/
theorem handleDrop_crossGroup_rejected_witness :
    handleDrop [unindexedNote, pinnedNote5] pinnedNote5 "u" none =
      { errorMessage := some crossGroupMessage, updates := [] } :=
  handleDrop_crossGroup_rejected [unindexedNote, pinnedNote5] pinnedNote5 unindexedNote "u"
    none (by decide) (by decide) (by decide) (by decide) (fun _ h => nomatch h)

/-- C9: a released touch with horizontal delta +80 px and vertical delta
10 px passes the 72 px trigger threshold and the 1.25 horizontal-dominance
check, and being rightward is classified as the edit trigger, not as
delete. -/
theorem swipe_classification :
    SWIPE_TRIGGER_PX ≤ |(80 : ℚ)| ∧
    |(10 : ℚ)| * swipeDirectionRatio ≤ |(80 : ℚ)| ∧
    (0 : ℚ) < 80 ∧
    classifyTouchEndSwipe 80 10 = some SwipeAction.edit ∧
    classifyTouchEndSwipe 80 10 ≠ some SwipeAction.delete := by
  unfold classifyTouchEndSwipe SWIPE_TRIGGER_PX swipeDirectionRatio
  norm_num
  decide

theorem runAuth_allowed_aux :
    ∀ (events : List (Option AuthUser)) (s : AppState),
      (∀ u, s.user = some u → isAllowedUser u = true) →
      ∀ u, (runAuth s events).user = some u → isAllowedUser u = true
  | [], _, hs, u, h => hs u h
  | e :: es, s, hs, u, h => by
    refine runAuth_allowed_aux es (onAuthStateChangedStep s e) ?_ u h
    intro v hv
    unfold onAuthStateChangedStep at hv
    cases e with
    | none => simp at hv
    | some w =>
      by_cases hw : isAllowedUser w = true
      · simp only [hw, Bool.not_true, Bool.false_eq_true, if_false] at hv
        rw [← Option.some.inj hv]
        exact hw
      · have hw2 : isAllowedUser w = false := by
          cases hiw : isAllowedUser w
          · rfl
          · exact absurd hiw hw
        simp only [hw2, Bool.not_false, if_true] at hv
        cases hv

/-- C10 (implicit): on every auth change a signed-in user failing the
three-address allowlist is rejected — the user is cleared, the note list
emptied, the rejection message shown, and sign-out initiated — so in every
state reachable from the initial one through auth events, the signed-in
user satisfies the allowlist. -/
theorem allowlist_invariant :
    (∀ (s : AppState) (u : AuthUser), isAllowedUser u = false →
      onAuthStateChangedStep s (some u) =
        { s with user := none, notes := [], authLoading := false,
                 errorMessage := disallowedAccountMessage } ∧
      signOutRequested (some u) = true) ∧
    (∀ (events : List (Option AuthUser)) (u : AuthUser),
      (runAuth initialAppState events).user = some u → isAllowedUser u = true) := by
  constructor
  · intro s u hu
    constructor
    · unfold onAuthStateChangedStep
      dsimp only
      rw [if_pos (by rw [hu]; rfl)]
    · unfold signOutRequested
      dsimp only
      rw [hu]
      rfl
  · intro events u h
    refine runAuth_allowed_aux events initialAppState ?_ u h
    intro v hv
    cases hv

/-- Witness for C10: after one auth event carrying an allowlisted account,
that account is the signed-in user and passes the allowlist. -/
theorem allowlist_invariant_witness :
    (runAuth initialAppState [some allowedUser]).user = some allowedUser ∧
    isAllowedUser allowedUser = true :=
  ⟨by decide, allowlist_invariant.2 [some allowedUser] allowedUser (by decide)⟩

theorem applyUpdate_id (updates : List (String × Int)) (n : Note) :
    (applyUpdate updates n).id = n.id := by
  unfold applyUpdate
  cases updates.lookup n.id <;> rfl

theorem applyUpdates_ids (notes : List Note) (updates : List (String × Int)) :
    (applyUpdates notes updates).map Note.id = notes.map Note.id := by
  unfold applyUpdates
  rw [List.map_map]
  exact List.map_congr_left fun a _ => applyUpdate_id updates a

theorem applyUpdates_nil (notes : List Note) : applyUpdates notes [] = notes := by
  unfold applyUpdates
  have h : ∀ n ∈ notes, applyUpdate [] n = id n := fun n _ => rfl
  rw [List.map_congr_left h, List.map_id]

theorem set_sortIndex_eq_self {n : Note} {v : Option Int} (h : n.sortIndex = v) :
    { n with sortIndex := v } = n := by
  cases n
  cases h
  rfl

theorem lookup_mkUpdatesFrom_none :
    ∀ (k : Nat) (l : List Note) (x : String), x ∉ l.map Note.id →
      (mkUpdatesFrom k l).lookup x = none
  | _, [], _, _ => rfl
  | k, n :: t, x, hx => by
    have hx1 : x ≠ n.id := by
      intro he
      apply hx
      rw [he, List.map_cons]
      exact List.mem_cons_self _ _
    have hx2 : x ∉ t.map Note.id := by
      intro hm
      apply hx
      rw [List.map_cons]
      exact List.mem_cons_of_mem _ hm
    unfold mkUpdatesFrom
    by_cases hc : getSortIndex n ≠ some (k : Int)
    · rw [if_pos hc]
      have hbeq : (x == n.id) = false := beq_eq_false_iff_ne.mpr hx1
      simp only [List.lookup, hbeq]
      exact lookup_mkUpdatesFrom_none (k + 1) t x hx2
    · rw [if_neg hc]
      exact lookup_mkUpdatesFrom_none (k + 1) t x hx2

theorem map_applyUpdate_mkUpdatesFrom :
    ∀ (k : Nat) (l : List Note), (l.map Note.id).Nodup →
      l.map (applyUpdate (mkUpdatesFrom k l)) = renumberFrom k l
  | _, [], _ => rfl
  | k, n :: t, hnd => by
    rw [List.map_cons] at hnd
    have hnid : n.id ∉ t.map Note.id := (List.nodup_cons.mp hnd).1
    have hndt : (t.map Note.id).Nodup := (List.nodup_cons.mp hnd).2
    show applyUpdate (mkUpdatesFrom k (n :: t)) n ::
        t.map (applyUpdate (mkUpdatesFrom k (n :: t))) =
      { n with sortIndex := some (k : Int) } :: renumberFrom (k + 1) t
    by_cases hc : getSortIndex n ≠ some (k : Int)
    · have hu : mkUpdatesFrom k (n :: t) = (n.id, (k : Int)) :: mkUpdatesFrom (k + 1) t := by
        simp only [mkUpdatesFrom]
        rw [if_pos hc]
      rw [hu]
      congr 1
      · unfold applyUpdate
        have hbeq : (n.id == n.id) = true := beq_self_eq_true n.id
        simp only [List.lookup, hbeq]
      · have hcongr : ∀ m ∈ t,
            applyUpdate ((n.id, (k : Int)) :: mkUpdatesFrom (k + 1) t) m =
              applyUpdate (mkUpdatesFrom (k + 1) t) m := by
          intro m hm
          have hne : (m.id == n.id) = false := beq_eq_false_iff_ne.mpr
            (fun he => hnid (he ▸ List.mem_map_of_mem Note.id hm))
          unfold applyUpdate
          simp only [List.lookup, hne]
        rw [List.map_congr_left hcongr]
        exact map_applyUpdate_mkUpdatesFrom (k + 1) t hndt
    · push_neg at hc
      have hu : mkUpdatesFrom k (n :: t) = mkUpdatesFrom (k + 1) t := by
        simp only [mkUpdatesFrom]
        rw [if_neg (not_not_intro hc)]
      rw [hu]
      congr 1
      · have hl : (mkUpdatesFrom (k + 1) t).lookup n.id = none :=
          lookup_mkUpdatesFrom_none (k + 1) t n.id hnid
        unfold applyUpdate
        rw [hl]
        exact (set_sortIndex_eq_self hc).symm
      · exact map_applyUpdate_mkUpdatesFrom (k + 1) t hndt

theorem renumberFrom_ids : ∀ (k : Nat) (l : List Note),
    (renumberFrom k l).map Note.id = l.map Note.id
  | _, [] => rfl
  | k, n :: t => by
    unfold renumberFrom
    rw [List.map_cons, List.map_cons, renumberFrom_ids (k + 1) t]

theorem renumberFrom_pinned {p : Bool} :
    ∀ (k : Nat) (l : List Note), (∀ n ∈ l, n.pinned = p) →
      ∀ m ∈ renumberFrom k l, m.pinned = p
  | _, [], _, m, hm => absurd hm (List.not_mem_nil m)
  | k, n :: t, h, m, hm => by
    unfold renumberFrom at hm
    rcases List.mem_cons.mp hm with rfl | hm2
    · exact h n (List.mem_cons_self n t)
    · exact renumberFrom_pinned (k + 1) t
        (fun x hx => h x (List.mem_cons_of_mem n hx)) m hm2

theorem renumberFrom_index :
    ∀ (k : Nat) (l : List Note), ∀ m ∈ renumberFrom k l,
      ∃ j : Nat, k ≤ j ∧ getSortIndex m = some (j : Int)
  | _, [], m, hm => absurd hm (List.not_mem_nil m)
  | k, n :: t, m, hm => by
    unfold renumberFrom at hm
    rcases List.mem_cons.mp hm with rfl | hm2
    · exact ⟨k, le_refl k, rfl⟩
    · obtain ⟨j, hj, hmj⟩ := renumberFrom_index (k + 1) t m hm2
      exact ⟨j, by omega, hmj⟩

theorem renumberFrom_sorted {p : Bool} :
    ∀ (k : Nat) (l : List Note), (∀ n ∈ l, n.pinned = p) →
      (renumberFrom k l).Sorted noteLE
  | _, [], _ => List.sorted_nil
  | k, n :: t, h => by
    unfold renumberFrom
    rw [List.sorted_cons]
    refine ⟨?_, renumberFrom_sorted (k + 1) t
      (fun x hx => h x (List.mem_cons_of_mem n hx))⟩
    intro m hm
    obtain ⟨j, hj, hmj⟩ := renumberFrom_index (k + 1) t m hm
    have hmp : m.pinned = p := renumberFrom_pinned (k + 1) t
      (fun x hx => h x (List.mem_cons_of_mem n hx)) m hm
    have hcmp : cmpNotes { n with sortIndex := some (k : Int) } m = (k : Int) - (j : Int) := by
      refine cmpNotes_of_indices ?_ rfl hmj (by omega)
      show n.pinned = m.pinned
      rw [h n (List.mem_cons_self n t), hmp]
    show cmpNotes { n with sortIndex := some (k : Int) } m ≤ 0
    omega

theorem insertIdx_eraseIdx_self :
    ∀ (l : List Note) (i : Nat) (x : Note), l[i]? = some x →
      (l.eraseIdx i).insertIdx i x = l
  | [], i, x, h => by simp at h
  | n :: t, 0, x, h => by
    have hx : n = x := by simpa using h
    show t.insertIdx 0 x = n :: t
    rw [List.insertIdx_zero, hx]
  | n :: t, i + 1, x, h => by
    have h2 : t[i]? = some x := by simpa using h
    show ((n :: t).eraseIdx (i + 1)).insertIdx (i + 1) x = n :: t
    rw [show (n :: t).eraseIdx (i + 1) = n :: t.eraseIdx i from rfl]
    rw [List.insertIdx_succ_cons]
    rw [insertIdx_eraseIdx_self t i x h2]

theorem perm_cons_eraseIdx {l : List Note} {i : Nat} {x : Note} (h : l[i]? = some x) :
    l.Perm (x :: l.eraseIdx i) := by
  obtain ⟨hlt, hx⟩ := List.getElem?_eq_some.mp h
  have h1 : l.Perm (l[i] :: l.erase l[i]) := List.perm_cons_erase (l.getElem_mem hlt)
  have h2 := List.erase_getElem hlt
  rw [hx] at h1 h2
  exact h1.trans (h2.cons x)

/-- C2 counterexample: in the sorted unpinned group `[A(idx 0), B(idx 1)]`,
moving note "a" to insertion position 2 (already within `[0, 2]`, so
clamping keeps 2) reorders the group to `[B, A]`: after the emitted map is
applied and the Ordering Engine re-run, "a" sits at index 1 = pos − 1 and
position 2 does not even exist, so the claim's "placing the moving note at
the clamped position pos" is false here. -/
theorem reorder_roundtrip_counterexample :
    (sortNotes (applyUpdates [noteA, noteB]
        (reorderWithinGroup [noteA, noteB] false "a" 2))).map Note.id = ["b", "a"] ∧
    max 0 (min 2 (([noteA, noteB] : List Note).length : Int)) = 2 ∧
    ((sortNotes (applyUpdates [noteA, noteB]
        (reorderWithinGroup [noteA, noteB] false "a" 2))).map Note.id)[2]? ≠ some "a" ∧
    ((sortNotes (applyUpdates [noteA, noteB]
        (reorderWithinGroup [noteA, noteB] false "a" 2))).map Note.id)[1]? = some "a" := by
  decide

/-- C2 (amended): for a sorted single-pinned-state group with distinct
identifiers containing the moving note, applying the index map emitted by
`reorderWithinGroup` back to the group and re-running the Ordering Engine
yields exactly the intended reordered sequence (the group with the moving
note spliced out and reinserted), and the moving note lands at
`reorderTargetIndex` — the clamped position when it does not exceed the
note's current position, and the clamped position minus one otherwise. -/
theorem reorder_roundtrip (g : List Note) (p : Bool) (movingId : String) (pos : Int)
    (moved : Note) (fromIndex : Nat)
    (hp : ∀ n ∈ g, n.pinned = p)
    (hnd : (g.map Note.id).Nodup)
    (hsort : g.Sorted noteLE)
    (hfi : g.findIdx? (fun item => item.id == movingId) = some fromIndex)
    (hmv : g[fromIndex]? = some moved) :
    (sortNotes (applyUpdates g (reorderWithinGroup g p movingId pos))).map Note.id =
      ((g.eraseIdx fromIndex).insertIdx (reorderTargetIndex g fromIndex pos) moved).map
        Note.id ∧
    ((sortNotes (applyUpdates g (reorderWithinGroup g p movingId pos))).map
      Note.id)[reorderTargetIndex g fromIndex pos]? = some movingId := by
  obtain ⟨hflt, hfeq⟩ := List.findIdx?_eq_some_iff_findIdx_eq.mp hfi
  have hmoved_eq : g[fromIndex] = moved := by
    have h0 := List.getElem?_eq_getElem hflt
    rw [hmv] at h0
    exact (Option.some.inj h0).symm
  have hmid : moved.id = movingId := by
    have hw : g.findIdx (fun item => item.id == movingId) < g.length := by
      rw [hfeq]
      exact hflt
    have h0 := @List.findIdx_getElem Note (fun item => item.id == movingId) g hw
    simp only [hfeq] at h0
    simp only [hmoved_eq] at h0
    exact eq_of_beq h0
  have hfil : g.filter (fun item => item.pinned == p) = g :=
    List.filter_eq_self.mpr (fun a ha => by rw [hp a ha]; exact beq_self_eq_true p)
  set toIdx := reorderTargetIndex g fromIndex pos with hti
  set rest := g.eraseIdx fromIndex with hre
  have hU : reorderWithinGroup g p movingId pos =
      if fromIndex = toIdx then [] else mkUpdatesFrom 0 (rest.insertIdx toIdx moved) := by
    rw [hti, hre]
    unfold reorderWithinGroup reorderUpdates reorderTargetIndex
    rw [hfil]
    dsimp only
    rw [hfi]
    dsimp only
    rw [hmv]
  have hrestlen : rest.length = g.length - 1 := by
    rw [hre, List.length_eraseIdx, if_pos hflt]
  have htle : toIdx ≤ rest.length := by
    rw [hti, hrestlen]
    unfold reorderTargetIndex
    dsimp only
    split_ifs with h
    · omega
    · omega
  have hperm1 : g.Perm (moved :: rest) := perm_cons_eraseIdx hmv
  have hperm2 := List.perm_insertIdx moved rest htle
  have hpermg : g.Perm (rest.insertIdx toIdx moved) := hperm1.trans hperm2.symm
  by_cases hno : fromIndex = toIdx
  · rw [hU, if_pos hno, applyUpdates_nil]
    have hgg : sortNotes g = g := List.Sorted.insertionSort_eq hsort
    constructor
    · rw [hgg, ← hno, hre, insertIdx_eraseIdx_self g fromIndex moved hmv]
    · rw [hgg, ← hno, List.getElem?_map, hmv]
      simp [hmid]
  · rw [hU, if_neg hno]
    have hndr : ((rest.insertIdx toIdx moved).map Note.id).Nodup :=
      ((hpermg.map Note.id).nodup_iff).mp hnd
    have happly := map_applyUpdate_mkUpdatesFrom 0 (rest.insertIdx toIdx moved) hndr
    have hpg : (applyUpdates g (mkUpdatesFrom 0 (rest.insertIdx toIdx moved))).Perm
        (renumberFrom 0 (rest.insertIdx toIdx moved)) := by
      unfold applyUpdates
      rw [← happly]
      exact hpermg.map _
    have hpinr : ∀ n ∈ rest.insertIdx toIdx moved, n.pinned = p :=
      fun n hn => hp n (hpermg.mem_iff.mpr hn)
    have hsren := renumberFrom_sorted 0 (rest.insertIdx toIdx moved) hpinr
    have hndsorted : ((sortNotes (applyUpdates g
        (mkUpdatesFrom 0 (rest.insertIdx toIdx moved)))).map Note.id).Nodup := by
      have h1 := (sortNotes_perm (applyUpdates g
        (mkUpdatesFrom 0 (rest.insertIdx toIdx moved)))).map Note.id
      rw [applyUpdates_ids] at h1
      exact h1.nodup_iff.mpr hnd
    have hkey : sortNotes (applyUpdates g (mkUpdatesFrom 0 (rest.insertIdx toIdx moved))) =
        renumberFrom 0 (rest.insertIdx toIdx moved) :=
      eq_of_perm_of_sorted_antisymm (antisymm_of_nodup_ids hndsorted)
        ((sortNotes_perm _).trans hpg) (sortNotes_sorted _) hsren
    have hlen2 : (rest.insertIdx toIdx moved).length = rest.length + 1 :=
      List.length_insertIdx toIdx rest htle
    constructor
    · rw [hkey, renumberFrom_ids]
    · rw [hkey, renumberFrom_ids, List.getElem?_map]
      have hlt2 : toIdx < (rest.insertIdx toIdx moved).length := by omega
      rw [List.getElem?_eq_getElem hlt2]
      have hself := List.getElem_insertIdx_self rest moved toIdx htle
      simp [hself, hmid]

/-- Witness for C2 (amended) at the spec's own scenario: in the unpinned
group `[A(0), B(1), C(2)]`, moving "c" to position 0 round-trips to
`[C, A, B]` with "c" at index 0. -/
theorem reorder_roundtrip_witness :
    (sortNotes (applyUpdates [noteA, noteB, noteC]
        (reorderWithinGroup [noteA, noteB, noteC] false "c" 0))).map Note.id =
      (([noteA, noteB, noteC].eraseIdx 2).insertIdx
        (reorderTargetIndex [noteA, noteB, noteC] 2 0) noteC).map Note.id ∧
    ((sortNotes (applyUpdates [noteA, noteB, noteC]
        (reorderWithinGroup [noteA, noteB, noteC] false "c" 0))).map
      Note.id)[reorderTargetIndex [noteA, noteB, noteC] 2 0]? = some "c" :=
  reorder_roundtrip [noteA, noteB, noteC] false "c" 0 noteC 2
    (by decide) (by decide) (by decide) (by decide) (by decide)
